import Mathlib

/-!
Shallow embedding of the grid-repair core of `nvme_lint/extractor.py`
(`clean_table` and its helpers), together with proofs of the spec's
testable properties about it.

Modelling decisions:
* a cell is `Option String`: `none` models pandas `NaN` (an empty cell),
  `some s` a non-blank text value;
* a grid is the list of its rows; all accesses in the source are positional
  (`iat`, `iloc`, `itertuples`, positional slices of a duplicate-free column
  index), so a positional list model is faithful;
* Python `set` becomes `Finset Nat`; Python `dict` becomes an association
  list with insert-or-overwrite semantics (only `max` over keys and lookup
  are used downstream);
* `min()` / `max()` on an empty set and out-of-range `iloc` raise in Python;
  those paths return `Except.error`;
* the two unbounded recursions (`partition_into_subtables` and the
  `while holes := ...` loop of `clean_table`) are given explicit fuel;
  exhausted fuel in the hole loop is an `Except.error`, never a grid.
-/

set_option maxRecDepth 8000

namespace Extractor

/-- A table cell: `none` models pandas `NaN`. -/
abbrev Cell := Option String

abbrev Row := List Cell

/-- A grid is the list of its rows. -/
abbrev Grid := List Row

/-- Number of rows (`table.shape[0]`). -/
def nrows (g : Grid) : Nat := g.length

/-- Number of columns (`table.shape[1]`); a DataFrame is rectangular, so the
first row's length is the column count (0 for an empty grid). -/
def ncols (g : Grid) : Nat := ((g.head?).map List.length).getD 0

/-- `row[col]` of a positional row tuple (out-of-range reads as `NaN`; all
in-repo accesses are shown in bounds separately). -/
def cellOf (row : Row) (i : Nat) : Cell := (row[i]?).getD none

/-- `table.iat[r, c]`. -/
def cellAt (g : Grid) (r c : Nat) : Cell := cellOf ((g[r]?).getD []) c

/-- The regex `^\s*$` of `clean_table`'s first `replace`: true on the empty
string and on whitespace-only strings. -/
def isBlank (s : String) : Bool :=
  s.data.all fun c => c = ' ' || c = '\t' || c = '\n' || c = '\r' || c = '\x0b' || c = '\x0c'

/-- `table.replace(r"^\s*$", np.nan, regex=True)` on one cell. -/
def normalizeCell (s : String) : Cell := if isBlank s then none else some s

def replaceBlank (g : List (List String)) : Grid := g.map (List.map normalizeCell)

/-- `table.dropna(how="all", axis=0)` followed by `reset_index(drop=True)`. -/
def dropEmptyRows (g : Grid) : Grid := g.filter fun row => row.any Option.isSome

/-- Column `j` keeps at least one value somewhere in the grid. -/
def colNonEmpty (g : Grid) (j : Nat) : Bool :=
  g.any fun row => (cellOf row j).isSome

/-- `table.dropna(how="all", axis=1)`: drop the columns that are `NaN` in
every row. -/
def dropEmptyCols (g : Grid) : Grid :=
  let keep := (List.range (ncols g)).filter (colNonEmpty g)
  g.map fun row => keep.map fun j => cellOf row j

/-- First loop of `find_outer_end`: index of the first non-`NaN` column of
row `firstRow` (0 when the whole row is `NaN`, as in the source's default). -/
def subtableFirstCol (firstRow : Nat) (g : Grid) : Nat :=
  ((List.range (ncols g)).find? fun c => (cellAt g firstRow c).isSome).getD 0

/-- First loop of `partition_into_subtables`: index of the last non-`NaN`
column of row `firstRow` (`current_last_col`, default 0). -/
def lastNonNullCol (firstRow : Nat) (g : Grid) : Nat :=
  (((List.range (ncols g)).reverse).find? fun c => (cellAt g firstRow c).isSome).getD 0

/-- `find_outer_end(first_row, table)`: last row of the outer shape of the
subtable; `-1` can occur for an empty grid, hence the `Int` result. -/
def find_outer_end (firstRow : Nat) (g : Grid) : Int :=
  let fc := subtableFirstCol firstRow g
  match (List.range' firstRow (nrows g - firstRow)).find?
      (fun i => (List.range fc).any fun x => (cellAt g i x).isSome) with
  | some i => (i : Int) - 1
  | none => (nrows g : Int) - 1

/-- `find_next_subtable(first_row, last_col, table)`: first row after
`first_row` with content strictly right of `last_col`, if any. -/
def find_next_subtable (firstRow lastCol : Nat) (g : Grid) : Option Nat :=
  (List.range' (firstRow + 1) (nrows g - (firstRow + 1))).find? fun i =>
    (List.range' (lastCol + 1) (ncols g - (lastCol + 1))).any fun x =>
      (cellAt g i x).isSome

mutual

/-- Body of `partition_into_subtables(current_first_row, table)`, with fuel
for the recursion (the Python recursion terminates because every nested call
starts at a strictly later row; fuel exhaustion returns `[]`). -/
def partitionFuel (fuel : Nat) (firstRow : Nat) (g : Grid) : List (Finset Nat) :=
  match fuel with
  | 0 => []
  | fuel + 1 =>
    let lastCol := lastNonNullCol firstRow g
    let lastRow := find_outer_end firstRow g
    let cur := (Finset.range (nrows g)).filter fun r => firstRow ≤ r ∧ (r : Int) ≤ lastRow
    partitionLoop fuel firstRow lastCol g cur []

/-- The `while next_first_row := find_next_subtable(...)` loop of
`partition_into_subtables`: subtract each nested subtable from the candidate
set, append it, advance past the consumed rows; finally append the surviving
candidate set if non-empty. -/
def partitionLoop (fuel : Nat) (curFr lastCol : Nat) (g : Grid) (cur : Finset Nat)
    (acc : List (Finset Nat)) : List (Finset Nat) :=
  match fuel with
  | 0 => acc ++ if cur.Nonempty then [cur] else []
  | fuel + 1 =>
    match find_next_subtable curFr lastCol g with
    | none => acc ++ if cur.Nonempty then [cur] else []
    | some nfr =>
      let nexts := partitionFuel fuel nfr g
      let cur2 := nexts.foldl (fun s t => s \ t) cur
      let newFr := nfr + nexts.foldl (fun a t => a + t.card) 0
      partitionLoop fuel newFr lastCol g cur2 (acc ++ nexts)

end

/-- Fuel amply sufficient for the grids considered concretely; all
universally quantified theorems below are proved for every fuel value. -/
def partitionDefaultFuel (g : Grid) : Nat := (nrows g + 2) ^ 3

/-- `partition_into_subtables(first_row, table)`. -/
def partition_into_subtables (firstRow : Nat) (g : Grid) : List (Finset Nat) :=
  partitionFuel (partitionDefaultFuel g) firstRow g

/-- `find_hole_in_row(row)`: `.error` models the `ValueError` that
`min(non_nan_indices)` raises on a fully-`NaN` row. -/
def find_hole_in_row (row : Row) : Except String (Option Nat) :=
  let nonNanIndices := (Finset.range row.length).filter fun i => (cellOf row i).isSome
  if h : nonNanIndices.Nonempty then
    let hole := Finset.Ico (nonNanIndices.min' h) (nonNanIndices.max' h) \ nonNanIndices
    if h2 : hole.Nonempty then .ok (some (hole.max' h2)) else .ok none
  else .error "ValueError: min() arg is an empty sequence"

/-- Python `dict` insertion `holes[hole] = subtable`: overwrite the value at
an existing key, else append the new pair. -/
def dictInsert (k : Nat) (v : Finset Nat) : List (Nat × Finset Nat) → List (Nat × Finset Nat)
  | [] => [(k, v)]
  | (k2, v2) :: rest => if k2 = k then (k, v) :: rest else (k2, v2) :: dictInsert k v rest

/-- `holes[index]` lookup (keys are unique by construction). -/
def dictGet (holes : List (Nat × Finset Nat)) (k : Nat) : Finset Nat :=
  ((holes.find? fun kv => kv.1 == k).map Prod.snd).getD ∅

/-- The `for subtable in subtables` loop of `find_holes`, with the `holes`
dict as accumulator (`min` of an empty set and out-of-range `iloc` raise,
and a raised exception aborts the whole loop). -/
def find_holes_go (g : Grid) :
    List (Finset Nat) → List (Nat × Finset Nat) → Except String (List (Nat × Finset Nat))
  | [], holes => .ok holes
  | subtable :: rest, holes =>
    if h : subtable.Nonempty then
      match g[subtable.min' h]? with
      | some row =>
        match find_hole_in_row row with
        | .ok (some hole) => find_holes_go g rest (dictInsert hole subtable holes)
        | .ok none => find_holes_go g rest holes
        | .error e => .error e
      | none => .error "IndexError: single positional indexer is out-of-bounds"
    else .error "ValueError: min() arg is an empty sequence"

/-- `find_holes(subtables, table)`: the hole of the first row of each
subtable, inserted in list order. -/
def find_holes (subtables : List (Finset Nat)) (g : Grid) :
    Except String (List (Nat × Finset Nat)) :=
  find_holes_go g subtables []

/-- `combine_first` on one pair of cells: the left value unless it is `NaN`. -/
def combineFirst (a b : Cell) : Cell := if a.isSome then a else b

/-- One row of the merge of column `p` into column `p + 1`
(`pd.concat([table[...:p], table[p].combine_first(table[p+1]), table[p+2:]])`
read row-wise): keep the first `p` cells, combine cells `p` and `p + 1`,
keep the cells from `p + 2` on. -/
def mergeRow (p : Nat) (row : Row) : Row :=
  row.take p ++ [combineFirst (cellOf row p) (cellOf row (p + 1))] ++ row.drop (p + 2)

/-- One row of the swap branch of `fix_hole`: `table.iat[row, col]` receives
the old `row[col+1]` and `table.iat[row, col+1]` the old `row[col]`. -/
def swapRow (col : Nat) (row : Row) : Row :=
  (row.set col (cellOf row (col + 1))).set (col + 1) (cellOf row col)

/-- `fix_hole(col, rows_with_hole, table)`. The three branches of the
source: merge `col` into `col + 1` when no row uses both; else merge `col`
into `col - 1` when no row uses both; else swap columns `col` and `col + 1`
in exactly the rows of `rows_with_hole`. (`col ≥ 1` at every call site, see
`find_hole_in_row_interior`; Python set iteration over the small row indices
is modelled as increasing row order, matching the pairing of the `left` /
`right` lists built in source order.) -/
def fix_hole (col : Nat) (rowsWithHole : Finset Nat) (g : Grid) : Grid :=
  if g.all fun row => (cellOf row col).isNone || (cellOf row (col + 1)).isNone then
    g.map (mergeRow col)
  else if g.all fun row => (cellOf row (col - 1)).isNone || (cellOf row col).isNone then
    g.map fun row =>
      row.take (col - 1)
        ++ [combineFirst (cellOf row (col - 1)) (cellOf row col)]
        ++ row.drop (col + 1)
  else
    g.mapIdx fun i row => if i ∈ rowsWithHole then swapRow col row else row

/-- The `while holes := find_holes(subtables, table)` loop of `clean_table`:
fix the hole with the maximum column index, repeat; fuel exhaustion is an
error (the loop has no syntactic bound in the source). -/
def cleanLoop (fuel : Nat) (subtables : List (Finset Nat)) (g : Grid) :
    Except String Grid :=
  match fuel with
  | 0 => .error "fuel exhausted: hole-resolution loop did not terminate"
  | fuel + 1 =>
    match find_holes subtables g with
    | .error e => .error e
    | .ok holes =>
      match (holes.map Prod.fst).max? with
      | none => .ok g
      | some index => cleanLoop fuel subtables (fix_hole index (dictGet holes index) g)

def cleanFuel (g : Grid) : Nat := ((nrows g + 2) * (ncols g + 2)) ^ 2 + 1

/-- `clean_table(table)`: normalize blanks to `NaN`, drop empty rows then
empty columns, segment once, run the hole-resolution loop, then replace
`NaN` by the empty string (the final `table.columns = range(...)` is a
no-op in the positional model). -/
def clean_table (raw : List (List String)) : Except String (List (List String)) :=
  let t := replaceBlank raw
  let t := dropEmptyRows t
  let t := dropEmptyCols t
  let subtables := partition_into_subtables 0 t
  match cleanLoop (cleanFuel t) subtables t with
  | .error e => .error e
  | .ok t2 => .ok (t2.map fun row => row.map fun c => c.getD "")

/-- Non-`NaN` values of a row, in order. -/
def rowVals (row : Row) : List String := row.filterMap id

/-- Non-`NaN` values of a grid, row-major. -/
def gridVals (g : Grid) : List String := g.foldr (fun row acc => rowVals row ++ acc) []

/-- Non-blank values of a raw string grid, row-major. -/
def rawVals (g : List (List String)) : List String :=
  g.foldr (fun row acc => row.filter (fun s => !isBlank s) ++ acc) []

/-- Rectangularity: every row has the grid's column count. -/
def IsRect (g : List (List α)) : Prop :=
  ∀ row ∈ g, row.length = ((g.head?).map List.length).getD 0

instance (g : List (List α)) : Decidable (IsRect g) := by
  unfold IsRect; infer_instance

/-! ### Structural invariants of the hole-resolution loop -/

/-- Every row has length `n`. -/
def RectN (g : Grid) (n : Nat) : Prop := ∀ row ∈ g, row.length = n

instance (g : Grid) (n : Nat) : Decidable (RectN g n) := by
  unfold RectN
  infer_instance

/-- No row is entirely `NaN`. -/
def NoEmptyRow (g : Grid) : Prop := ∀ row ∈ g, rowVals row ≠ []

/-- Column `j` holds a value in some row. -/
def ColNonempty (g : Grid) (j : Nat) : Prop := ∃ row ∈ g, (cellOf row j).isSome

/-- No column among `0 .. n-1` is entirely `NaN`. -/
def NoEmptyColsN (g : Grid) (n : Nat) : Prop := ∀ j < n, ColNonempty g j

/-- Every present value is a non-blank string. -/
def CellsNonBlank (g : Grid) : Prop :=
  ∀ row ∈ g, ∀ ce ∈ row, ∀ s, ce = some s → isBlank s = false

/-- The invariant the hole-resolution loop maintains. -/
def GoodGrid (n : Nat) (g : Grid) : Prop :=
  RectN g n ∧ NoEmptyRow g ∧ NoEmptyColsN g n ∧ CellsNonBlank g

/-! ### Row-level lemmas -/

theorem rowVals_append (l1 l2 : Row) : rowVals (l1 ++ l2) = rowVals l1 ++ rowVals l2 :=
  List.filterMap_append l1 l2 id

theorem gridVals_cons (row : Row) (g : Grid) :
    gridVals (row :: g) = rowVals row ++ gridVals g := rfl

theorem cellOf_cons_succ (a : Cell) (row : Row) (i : Nat) :
    cellOf (a :: row) (i + 1) = cellOf row i := by
  simp [cellOf]

/-- Any row splits around two adjacent in-range positions. -/
theorem row_decomp (c : Nat) (row : Row) (h : c + 2 ≤ row.length) :
    row = row.take c ++ [cellOf row c] ++ [cellOf row (c + 1)] ++ row.drop (c + 2) := by
  induction c generalizing row with
  | zero =>
    match row, h with
    | a :: b :: rest, _ => simp [cellOf]
  | succ c ih =>
    match row, h with
    | a :: rest, h =>
      have h2 : c + 2 ≤ rest.length := by
        simpa [Nat.succ_le_succ_iff] using h
      have := ih rest h2
      simp only [List.take_succ_cons, List.drop_succ_cons, cellOf_cons_succ,
        List.cons_append]
      exact congrArg (a :: ·) this

/-- `set`ting two adjacent in-range positions splits the same way. -/
theorem set_set_decomp (c : Nat) (x y : Cell) (row : Row) (h : c + 2 ≤ row.length) :
    (row.set c x).set (c + 1) y = row.take c ++ [x] ++ [y] ++ row.drop (c + 2) := by
  induction c generalizing row with
  | zero =>
    match row, h with
    | a :: b :: rest, _ => simp
  | succ c ih =>
    match row, h with
    | a :: rest, h =>
      have h2 : c + 2 ≤ rest.length := by
        simpa [Nat.succ_le_succ_iff] using h
      have := ih rest h2
      simp only [List.set_cons_succ, List.take_succ_cons, List.drop_succ_cons,
        List.cons_append]
      exact congrArg (a :: ·) this

/-- Cell access through a two-cell patch at `p`, `p + 1`. -/
theorem cellOf_patch (row : Row) (p : Nat) (u v : Cell) (h : p + 2 ≤ row.length) (k : Nat) :
    cellOf (row.take p ++ [u] ++ [v] ++ row.drop (p + 2)) k =
      if k = p then u else if k = p + 1 then v else cellOf row k := by
  have hp : (row.take p).length = p := by
    simp [List.length_take]
    omega
  have hL2 : (row.take p ++ [u]).length = p + 1 := by simp [hp]
  have hL1 : (row.take p ++ [u] ++ [v]).length = p + 2 := by simp [hp]
  unfold cellOf
  rcases Nat.lt_trichotomy k p with hk | hk | hk
  · rw [List.getElem?_append_left (by rw [hL1]; omega),
      List.getElem?_append_left (by rw [hL2]; omega),
      List.getElem?_append_left (by rw [hp]; omega),
      List.getElem?_take_of_lt hk]
    simp only [if_neg (by omega : ¬k = p), if_neg (by omega : ¬k = p + 1)]
  · subst hk
    rw [List.getElem?_append_left (by rw [hL1]; omega),
      List.getElem?_append_left (by rw [hL2]; omega),
      List.getElem?_append_right (by rw [hp])]
    simp [hp]
  · rcases Nat.lt_or_ge k (p + 2) with hk2 | hk2
    · have hkp : k = p + 1 := by omega
      subst hkp
      rw [List.getElem?_append_left (by rw [hL1]; omega),
        List.getElem?_append_right (by rw [hL2])]
      simp [hL2]
    · rw [List.getElem?_append_right (by rw [hL1]; omega), hL1, List.getElem?_drop]
      have : p + 2 + (k - (p + 2)) = k := by omega
      rw [this]
      simp only [if_neg (by omega : ¬k = p), if_neg (by omega : ¬k = p + 1)]

/-- Cell access through a one-cell patch at `p` covering old cells `p`,
`p + 1`: later columns shift left by one. -/
theorem cellOf_patch1 (row : Row) (p : Nat) (u : Cell) (h : p + 2 ≤ row.length) (k : Nat) :
    cellOf (row.take p ++ [u] ++ row.drop (p + 2)) k =
      if k < p then cellOf row k else if k = p then u else cellOf row (k + 1) := by
  have hp : (row.take p).length = p := by
    simp [List.length_take]
    omega
  have hL2 : (row.take p ++ [u]).length = p + 1 := by simp [hp]
  unfold cellOf
  rcases Nat.lt_trichotomy k p with hk | hk | hk
  · rw [List.getElem?_append_left (by rw [hL2]; omega),
      List.getElem?_append_left (by rw [hp]; omega),
      List.getElem?_take_of_lt hk]
    simp only [if_pos hk]
  · subst hk
    rw [List.getElem?_append_left (by rw [hL2]; omega),
      List.getElem?_append_right (by rw [hp])]
    simp [hp]
  · rw [List.getElem?_append_right (by rw [hL2]; omega), hL2, List.getElem?_drop]
    have : p + 2 + (k - (p + 1)) = k + 1 := by omega
    rw [this]
    simp only [if_neg (by omega : ¬k < p), if_neg (by omega : ¬k = p)]

theorem combineFirst_cases (a b : Cell) : combineFirst a b = a ∨ combineFirst a b = b := by
  unfold combineFirst
  split_ifs <;> simp

theorem mergeRow_length (p : Nat) (row : Row) (h : p + 2 ≤ row.length) :
    (mergeRow p row).length = row.length - 1 := by
  simp [mergeRow, List.length_take, List.length_drop]
  omega

/-- Under the no-conflict condition the merge loses no value and adds none. -/
theorem mergeRow_vals (p : Nat) (row : Row) (h : p + 2 ≤ row.length)
    (hc : cellOf row p = none ∨ cellOf row (p + 1) = none) :
    rowVals (mergeRow p row) = rowVals row := by
  conv_rhs => rw [row_decomp p row h]
  unfold mergeRow rowVals
  simp only [List.filterMap_append]
  rcases hc with hc | hc <;> rw [hc] <;> cases h2 : cellOf row (p + 1) <;>
    cases h3 : cellOf row p <;> simp_all [combineFirst]

theorem mergeRow_cellOf (p : Nat) (row : Row) (h : p + 2 ≤ row.length) (k : Nat) :
    cellOf (mergeRow p row) k =
      if k < p then cellOf row k
      else if k = p then combineFirst (cellOf row p) (cellOf row (p + 1))
      else cellOf row (k + 1) := by
  unfold mergeRow
  exact cellOf_patch1 row p _ h k

/-- A non-`NaN` `cellOf` read is a genuine member of the row. -/
theorem cellOf_some_mem (row : Row) (i : Nat) (s : String) (h : cellOf row i = some s) :
    some s ∈ row := by
  unfold cellOf at h
  cases h4 : row[i]? with
  | none => rw [h4] at h; simp at h
  | some x =>
    rw [h4] at h
    simp only [Option.getD_some] at h
    subst h
    exact List.mem_iff_getElem?.mpr ⟨i, h4⟩

/-- A cell of the merged row is a cell of the old row, or `NaN`. -/
theorem mergeRow_mem (p : Nat) (row : Row) (ce : Cell)
    (hce : ce ∈ mergeRow p row) : ce ∈ row ∨ ce = none := by
  unfold mergeRow at hce
  simp only [List.append_assoc, List.mem_append, List.mem_singleton] at hce
  rcases hce with hce | hce | hce
  · exact Or.inl (List.mem_of_mem_take hce)
  · subst hce
    rcases combineFirst_cases (cellOf row p) (cellOf row (p + 1)) with h2 | h2 <;> rw [h2]
    · cases h3 : cellOf row p with
      | none => exact Or.inr rfl
      | some s => exact Or.inl (cellOf_some_mem row p s h3)
    · cases h3 : cellOf row (p + 1) with
      | none => exact Or.inr rfl
      | some s => exact Or.inl (cellOf_some_mem row (p + 1) s h3)
  · exact Or.inl (List.mem_of_mem_drop hce)

theorem swapRow_length (c : Nat) (row : Row) : (swapRow c row).length = row.length := by
  simp [swapRow]

theorem swapRow_decomp (c : Nat) (row : Row) (h : c + 2 ≤ row.length) :
    swapRow c row = row.take c ++ [cellOf row (c + 1)] ++ [cellOf row c] ++ row.drop (c + 2) :=
  set_set_decomp c _ _ row h

theorem swapRow_vals (c : Nat) (row : Row) (h : c + 2 ≤ row.length) :
    List.Perm (rowVals (swapRow c row)) (rowVals row) := by
  rw [swapRow_decomp c row h]
  conv_rhs => rw [row_decomp c row h]
  apply List.Perm.filterMap
  simp only [List.append_assoc, List.singleton_append, List.cons_append]
  exact List.Perm.append_left _ (List.Perm.swap _ _ _)

theorem swapRow_cellOf (c : Nat) (row : Row) (h : c + 2 ≤ row.length) (k : Nat) :
    cellOf (swapRow c row) k =
      if k = c then cellOf row (c + 1)
      else if k = c + 1 then cellOf row c
      else cellOf row k := by
  rw [swapRow_decomp c row h]
  exact cellOf_patch row c _ _ h k

theorem swapRow_mem (c : Nat) (row : Row) (h : c + 2 ≤ row.length) (ce : Cell)
    (hce : ce ∈ swapRow c row) : ce ∈ row ∨ ce = none := by
  rw [swapRow_decomp c row h] at hce
  simp only [List.append_assoc, List.mem_append, List.mem_singleton] at hce
  rcases hce with hce | hce | hce | hce
  · exact Or.inl (List.mem_of_mem_take hce)
  · subst hce
    cases h3 : cellOf row (c + 1) with
    | none => exact Or.inr rfl
    | some s => exact Or.inl (cellOf_some_mem row (c + 1) s h3)
  · subst hce
    cases h3 : cellOf row c with
    | none => exact Or.inr rfl
    | some s => exact Or.inl (cellOf_some_mem row c s h3)
  · exact Or.inl (List.mem_of_mem_drop hce)

/-! ### Grid-level preservation lemmas for `fix_hole` -/

theorem gridVals_map_congr (g : Grid) (f : Row → Row)
    (hf : ∀ row ∈ g, rowVals (f row) = rowVals row) :
    gridVals (g.map f) = gridVals g := by
  induction g with
  | nil => rfl
  | cons row g ih =>
    simp only [List.map_cons, gridVals_cons]
    rw [hf row (by simp), ih fun r hr => hf r (by simp [hr])]

theorem gridVals_mapIdx_perm (g : Grid) (f : Nat → Row → Row)
    (hf : ∀ i row, g[i]? = some row → List.Perm (rowVals (f i row)) (rowVals row)) :
    List.Perm (gridVals (g.mapIdx f)) (gridVals g) := by
  induction g generalizing f with
  | nil => simp [gridVals]
  | cons row g ih =>
    rw [List.mapIdx_cons]
    simp only [gridVals_cons]
    refine List.Perm.append (hf 0 row (by simp)) (ih _ fun i r hr => ?_)
    exact hf (i + 1) r (by simpa using hr)

theorem isSome_cellOf_combineFirst_left (a b : Cell) (h : a.isSome) :
    (combineFirst a b).isSome := by
  unfold combineFirst
  rw [if_pos h]
  exact h

theorem isSome_cellOf_combineFirst_right (a b : Cell) (h : b.isSome) :
    (combineFirst a b).isSome := by
  unfold combineFirst
  split_ifs <;> simp_all

/-- What one merge step does to the structural invariants and the values. -/
theorem merge_map_preserves (n p : Nat) (g : Grid)
    (hrect : RectN g n) (hner : NoEmptyRow g) (hnec : NoEmptyColsN g n)
    (hcnb : CellsNonBlank g) (hp2 : p + 2 ≤ n)
    (hc : ∀ row ∈ g, cellOf row p = none ∨ cellOf row (p + 1) = none) :
    RectN (g.map (mergeRow p)) (n - 1) ∧ NoEmptyRow (g.map (mergeRow p)) ∧
      NoEmptyColsN (g.map (mergeRow p)) (n - 1) ∧ CellsNonBlank (g.map (mergeRow p)) ∧
      gridVals (g.map (mergeRow p)) = gridVals g ∧ (g.map (mergeRow p)).length = g.length := by
  have hvals : ∀ row ∈ g, rowVals (mergeRow p row) = rowVals row := fun row hr =>
    mergeRow_vals p row (by rw [hrect row hr]; omega) (hc row hr)
  refine ⟨?_, ?_, ?_, ?_, gridVals_map_congr g _ hvals, by simp⟩
  · intro row' hrow'
    rcases List.mem_map.mp hrow' with ⟨row, hrow, rfl⟩
    rw [mergeRow_length p row (by rw [hrect row hrow]; omega), hrect row hrow]
  · intro row' hrow'
    rcases List.mem_map.mp hrow' with ⟨row, hrow, rfl⟩
    rw [hvals row hrow]
    exact hner row hrow
  · intro j hj
    rcases Nat.lt_trichotomy j p with hjp | hjp | hjp
    · rcases hnec j (by omega) with ⟨row, hrow, hsome⟩
      refine ⟨mergeRow p row, List.mem_map_of_mem _ hrow, ?_⟩
      rw [mergeRow_cellOf p row (by rw [hrect row hrow]; omega) j, if_pos hjp]
      exact hsome
    · subst hjp
      rcases hnec j (by omega) with ⟨row, hrow, hsome⟩
      refine ⟨mergeRow j row, List.mem_map_of_mem _ hrow, ?_⟩
      rw [mergeRow_cellOf j row (by rw [hrect row hrow]; omega) j, if_neg (by omega),
        if_pos rfl]
      exact isSome_cellOf_combineFirst_left _ _ hsome
    · rcases hnec (j + 1) (by omega) with ⟨row, hrow, hsome⟩
      refine ⟨mergeRow p row, List.mem_map_of_mem _ hrow, ?_⟩
      rw [mergeRow_cellOf p row (by rw [hrect row hrow]; omega) j, if_neg (by omega),
        if_neg (by omega)]
      exact hsome
  · intro row' hrow' ce hce s hs
    rcases List.mem_map.mp hrow' with ⟨row, hrow, rfl⟩
    rcases mergeRow_mem p row ce hce with hmem | hnone
    · exact hcnb row hrow ce hmem s hs
    · rw [hnone] at hs
      exact absurd hs (by simp)

/-- What the local swap does to the structural invariants and the values:
needs one row with values in both `c` and `c + 1` (the failed right-merge
check keeps columns `c` and `c + 1` inhabited after the swap). -/
theorem swap_mapIdx_preserves (n c : Nat) (S : Finset Nat) (g : Grid)
    (hrect : RectN g n) (hner : NoEmptyRow g) (hnec : NoEmptyColsN g n)
    (hcnb : CellsNonBlank g) (hc2 : c + 2 ≤ n)
    (hconf : ∃ row ∈ g, (cellOf row c).isSome ∧ (cellOf row (c + 1)).isSome) :
    RectN (g.mapIdx fun i row => if i ∈ S then swapRow c row else row) n ∧
      NoEmptyRow (g.mapIdx fun i row => if i ∈ S then swapRow c row else row) ∧
      NoEmptyColsN (g.mapIdx fun i row => if i ∈ S then swapRow c row else row) n ∧
      CellsNonBlank (g.mapIdx fun i row => if i ∈ S then swapRow c row else row) ∧
      List.Perm
        (gridVals (g.mapIdx fun i row => if i ∈ S then swapRow c row else row))
        (gridVals g) ∧
      (g.mapIdx fun i row => if i ∈ S then swapRow c row else row).length = g.length := by
  set f : Nat → Row → Row := fun i row => if i ∈ S then swapRow c row else row with hf
  have hmem_of : ∀ row' ∈ g.mapIdx f, ∃ i row, g[i]? = some row ∧ row' = f i row := by
    intro row' hrow'
    rcases List.mem_iff_getElem?.mp hrow' with ⟨i, hi⟩
    rw [List.getElem?_mapIdx] at hi
    cases hg : g[i]? with
    | none => rw [hg] at hi; simp at hi
    | some row =>
      rw [hg] at hi
      simp only [Option.map_some'] at hi
      exact ⟨i, row, hg, (Option.some_inj.mp hi).symm⟩
  have hrow_of : ∀ i row, g[i]? = some row → row ∈ g := fun i row hg =>
    List.mem_iff_getElem?.mpr ⟨i, hg⟩
  have hlen : ∀ i row, g[i]? = some row → (f i row).length = row.length := by
    intro i row _
    by_cases hiS : i ∈ S <;> simp [hf, hiS, swapRow_length]
  have hperm : ∀ i row, g[i]? = some row →
      List.Perm (rowVals (f i row)) (rowVals row) := by
    intro i row hg
    by_cases hiS : i ∈ S
    · simpa [hf, hiS] using swapRow_vals c row (by rw [hrect row (hrow_of i row hg)]; omega)
    · simp [hf, hiS]
  have hcell : ∀ i row, g[i]? = some row → ∀ k, k ≠ c → k ≠ c + 1 →
      cellOf (f i row) k = cellOf row k := by
    intro i row hg k hk1 hk2
    by_cases hiS : i ∈ S
    · rw [hf]
      simp only [if_pos hiS]
      rw [swapRow_cellOf c row (by rw [hrect row (hrow_of i row hg)]; omega) k,
        if_neg hk1, if_neg hk2]
    · simp [hf, hiS]
  refine ⟨?_, ?_, ?_, ?_, gridVals_mapIdx_perm g f hperm, by simp⟩
  · intro row' hrow'
    rcases hmem_of row' hrow' with ⟨i, row, hg, rfl⟩
    rw [hlen i row hg]
    exact hrect row (hrow_of i row hg)
  · intro row' hrow'
    rcases hmem_of row' hrow' with ⟨i, row, hg, rfl⟩
    intro hnil
    exact hner row (hrow_of i row hg) (List.Perm.eq_nil ((hperm i row hg).symm.trans (hnil ▸ List.Perm.refl _)))
  · intro j hj
    by_cases hjc : j = c ∨ j = c + 1
    · rcases hconf with ⟨row, hrow, hsc, hsc1⟩
      rcases List.mem_iff_getElem?.mp hrow with ⟨i, hi⟩
      refine ⟨f i row, List.mem_iff_getElem?.mpr ⟨i, by rw [List.getElem?_mapIdx, hi]; rfl⟩, ?_⟩
      have hlr : c + 2 ≤ row.length := by rw [hrect row hrow]; omega
      by_cases hiS : i ∈ S
      · rw [hf]
        simp only [if_pos hiS]
        rw [swapRow_cellOf c row hlr j]
        rcases hjc with rfl | rfl
        · rw [if_pos rfl]; exact hsc1
        · rw [if_neg (by omega), if_pos rfl]; exact hsc
      · rw [hf]
        simp only [if_neg hiS]
        rcases hjc with rfl | rfl
        · exact hsc
        · exact hsc1
    · push_neg at hjc
      rcases hnec j hj with ⟨row, hrow, hsome⟩
      rcases List.mem_iff_getElem?.mp hrow with ⟨i, hi⟩
      refine ⟨f i row, List.mem_iff_getElem?.mpr ⟨i, by rw [List.getElem?_mapIdx, hi]; rfl⟩, ?_⟩
      rw [hcell i row hi j hjc.1 hjc.2]
      exact hsome
  · intro row' hrow' ce hce s hs
    rcases hmem_of row' hrow' with ⟨i, row, hg, rfl⟩
    have hrowg := hrow_of i row hg
    by_cases hiS : i ∈ S
    · rw [hf] at hce
      simp only [if_pos hiS] at hce
      rcases swapRow_mem c row (by rw [hrect row hrowg]; omega) ce hce with hmem | hnone
      · exact hcnb row hrowg ce hmem s hs
      · rw [hnone] at hs
        exact absurd hs (by simp)
    · rw [hf] at hce
      simp only [if_neg hiS] at hce
      exact hcnb row hrowg ce hce s hs

/-! ### Hole detection: interiority, totality on non-empty rows -/

/-- A reported hole is strictly interior to the row's occupied span:
`1 ≤ c`, `c + 2 ≤ row.length`, the cell at `c` is empty, and non-empty
cells exist both strictly left and strictly right of `c`. -/
theorem find_hole_in_row_interior (row : Row) (c : Nat)
    (h : find_hole_in_row row = .ok (some c)) :
    1 ≤ c ∧ c + 2 ≤ row.length ∧ cellOf row c = none ∧
      (∃ i, i < c ∧ (cellOf row i).isSome) ∧
      (∃ j, c < j ∧ j < row.length ∧ (cellOf row j).isSome) := by
  simp only [find_hole_in_row] at h
  set nn := (Finset.range row.length).filter (fun i => (cellOf row i).isSome) with hnn
  by_cases hne : nn.Nonempty
  case neg =>
    rw [dif_neg hne] at h
    exact absurd h (by simp)
  rw [dif_pos hne] at h
  set hole := Finset.Ico (nn.min' hne) (nn.max' hne) \ nn with hhole
  by_cases hh2 : hole.Nonempty
  case neg =>
    rw [dif_neg hh2] at h
    simp at h
  rw [dif_pos hh2] at h
  simp only [Except.ok.injEq, Option.some.injEq] at h
  have hcmem : c ∈ hole := h ▸ hole.max'_mem hh2
  rw [hhole, Finset.mem_sdiff, Finset.mem_Ico] at hcmem
  obtain ⟨⟨hminle, hcltmax⟩, hcnn⟩ := hcmem
  obtain ⟨hminrange, hminsome⟩ := Finset.mem_filter.mp (nn.min'_mem hne)
  obtain ⟨hmaxrange, hmaxsome⟩ := Finset.mem_filter.mp (nn.max'_mem hne)
  rw [Finset.mem_range] at hminrange hmaxrange
  have hcne : c ≠ nn.min' hne := by
    intro hc
    rw [hc] at hcnn
    exact hcnn (nn.min'_mem hne)
  have hc1 : 1 ≤ c := by omega
  have hc2 : c + 2 ≤ row.length := by omega
  refine ⟨hc1, hc2, ?_, ⟨nn.min' hne, by omega, hminsome⟩,
    ⟨nn.max' hne, by omega, hmaxrange, hmaxsome⟩⟩
  rcases h3 : cellOf row c with _ | s
  · rfl
  · refine absurd (Finset.mem_filter.mpr ⟨Finset.mem_range.mpr (by omega), ?_⟩) hcnn
    rw [h3]
    rfl

/-- On a row with at least one value, hole detection cannot raise. -/
theorem find_hole_in_row_ok (row : Row) (hner : rowVals row ≠ []) :
    ∃ res, find_hole_in_row row = .ok res := by
  simp only [find_hole_in_row]
  set nn := (Finset.range row.length).filter (fun i => (cellOf row i).isSome) with hnn
  have hne : nn.Nonempty := by
    rcases List.exists_mem_of_ne_nil _ hner with ⟨s, hs⟩
    rcases List.mem_filterMap.mp hs with ⟨ce, hce, hid⟩
    rcases List.mem_iff_getElem?.mp hce with ⟨i, hi⟩
    refine ⟨i, ?_⟩
    rw [hnn, Finset.mem_filter, Finset.mem_range]
    have hlen : i < row.length := by
      by_contra hge
      rw [List.getElem?_eq_none_iff.mpr (by omega)] at hi
      exact absurd hi (by simp)
    refine ⟨hlen, ?_⟩
    unfold cellOf
    rw [hi]
    simp only [Option.getD_some]
    cases ce
    · exact absurd hid (by simp)
    · rfl
  rw [dif_pos hne]
  by_cases hh2 : (Finset.Ico (nn.min' hne) (nn.max' hne) \ nn).Nonempty
  · rw [dif_pos hh2]
    exact ⟨_, rfl⟩
  · rw [dif_neg hh2]
    exact ⟨_, rfl⟩

/-- On a fully empty row, hole detection raises `ValueError` (this is the
`min(non_nan_indices)` call of the source). -/
theorem find_hole_in_row_error (row : Row) (hner : rowVals row = []) :
    find_hole_in_row row = .error "ValueError: min() arg is an empty sequence" := by
  simp only [find_hole_in_row]
  set nn := (Finset.range row.length).filter (fun i => (cellOf row i).isSome) with hnn
  have hne : ¬nn.Nonempty := by
    rintro ⟨i, hi⟩
    rw [hnn, Finset.mem_filter, Finset.mem_range] at hi
    obtain ⟨hilen, hisome⟩ := hi
    rcases h4 : row[i]? with _ | ce
    · rw [List.getElem?_eq_none_iff] at h4
      omega
    · have hcemem : ce ∈ row := List.mem_iff_getElem?.mpr ⟨i, h4⟩
      cases ce with
      | none =>
        unfold cellOf at hisome
        rw [h4] at hisome
        exact absurd hisome (by simp)
      | some s =>
        have : s ∈ rowVals row := List.mem_filterMap.mpr ⟨some s, hcemem, rfl⟩
        rw [hner] at this
        exact absurd this (List.not_mem_nil s)
  rw [dif_neg hne]

/-! ### The holes dict -/

theorem dictInsert_mem (k : Nat) (v : Finset Nat) (d : List (Nat × Finset Nat))
    (kv : Nat × Finset Nat) (h : kv ∈ dictInsert k v d) : kv = (k, v) ∨ kv ∈ d := by
  induction d with
  | nil => simpa [dictInsert] using h
  | cons kv2 rest ih =>
    unfold dictInsert at h
    by_cases he : kv2.1 = k
    · rw [if_pos he] at h
      rcases List.mem_cons.mp h with h | h
      · exact Or.inl h
      · exact Or.inr (List.mem_cons_of_mem _ h)
    · rw [if_neg he] at h
      rcases List.mem_cons.mp h with h | h
      · exact Or.inr (h ▸ List.mem_cons_self _ _)
      · rcases ih h with h | h
        · exact Or.inl h
        · exact Or.inr (List.mem_cons_of_mem _ h)

theorem dictGet_mem (d : List (Nat × Finset Nat)) (k : Nat)
    (h : k ∈ d.map Prod.fst) : (k, dictGet d k) ∈ d := by
  have hex : ∃ kv ∈ d, (fun kv : Nat × Finset Nat => kv.1 == k) kv = true := by
    rcases List.mem_map.mp h with ⟨kv, hkv, hfst⟩
    exact ⟨kv, hkv, by simp [hfst]⟩
  rcases List.find?_isSome.mpr hex with hsome
  cases hfind : d.find? fun kv => kv.1 == k with
  | none => rw [hfind] at hsome; exact absurd hsome (by simp)
  | some kv =>
    have hmem := List.mem_of_find?_eq_some hfind
    have hkeq : kv.1 = k := by
      have := List.find?_some hfind
      simpa using this
    have : dictGet d k = kv.2 := by
      unfold dictGet
      rw [hfind]
      rfl
    rw [this]
    rcases kv with ⟨k1, v1⟩
    rw [← hkeq]
    exact hmem

/-! ### `find_holes` succeeds on good grids and reports genuine holes -/

/-- Every entry of the holes dict records a subtable whose first row exists
in the grid and genuinely reports that hole column. -/
def EntryOK (g : Grid) (d : List (Nat × Finset Nat)) : Prop :=
  ∀ kv ∈ d, ∃ (hs : kv.2.Nonempty) (row : Row), g[kv.2.min' hs]? = some row ∧
    find_hole_in_row row = .ok (some kv.1)

theorem find_holes_go_ok (g : Grid) (subs : List (Finset Nat))
    (hsubs : ∀ s ∈ subs, s.Nonempty ∧ s ⊆ Finset.range g.length)
    (hner : NoEmptyRow g) :
    ∀ d0, EntryOK g d0 → ∃ d, find_holes_go g subs d0 = .ok d ∧ EntryOK g d := by
  induction subs with
  | nil => exact fun d0 h0 => ⟨d0, rfl, h0⟩
  | cons s rest ih =>
    intro d0 h0
    obtain ⟨hsne, hssub⟩ := hsubs s (List.mem_cons_self s rest)
    have hmin : s.min' hsne < g.length := by
      have := hssub (s.min'_mem hsne)
      simpa [Finset.mem_range] using this
    obtain ⟨row, hrow⟩ : ∃ row, g[s.min' hsne]? = some row := by
      cases hx : g[s.min' hsne]? with
      | none =>
        rw [List.getElem?_eq_none_iff] at hx
        omega
      | some r => exact ⟨r, rfl⟩
    have hrmem : row ∈ g := List.mem_iff_getElem?.mpr ⟨_, hrow⟩
    obtain ⟨res, hres⟩ := find_hole_in_row_ok _ (hner _ hrmem)
    have hrest : ∀ t ∈ rest, t.Nonempty ∧ t ⊆ Finset.range g.length := fun t ht =>
      hsubs t (List.mem_cons_of_mem _ ht)
    unfold find_holes_go
    rw [dif_pos hsne]
    split
    case _ row2 heq =>
      have hrow2 : row2 = row := by
        rw [hrow] at heq
        exact (Option.some_inj.mp heq).symm
      subst hrow2
      split
      case _ hole hres2 =>
        refine ih hrest (dictInsert hole s d0) ?_
        intro kv hkv
        rcases dictInsert_mem hole s d0 kv hkv with rfl | hkv2
        · exact ⟨hsne, _, hrow, hres2⟩
        · exact h0 kv hkv2
      case _ hres2 =>
        exact ih hrest d0 h0
      case _ e hres2 =>
        rw [hres] at hres2
        exact absurd hres2 (by simp)
    case _ heq =>
      rw [hrow] at heq
      exact absurd heq (by simp)

theorem find_holes_ok (subs : List (Finset Nat)) (g : Grid)
    (hsubs : ∀ s ∈ subs, s.Nonempty ∧ s ⊆ Finset.range g.length)
    (hner : NoEmptyRow g) :
    ∃ d, find_holes subs g = .ok d ∧ EntryOK g d :=
  find_holes_go_ok g subs hsubs hner [] (by intro kv hkv; exact absurd hkv (List.not_mem_nil kv))

/-! ### `fix_hole` preserves the invariant and the value multiset -/

theorem fix_hole_preserves (n c : Nat) (S : Finset Nat) (g : Grid)
    (hgood : GoodGrid n g) (h1 : 1 ≤ c) (h2 : c + 2 ≤ n) :
    ∃ m, GoodGrid m (fix_hole c S g) ∧
      List.Perm (gridVals (fix_hole c S g)) (gridVals g) ∧
      (fix_hole c S g).length = g.length := by
  obtain ⟨hrect, hner, hnec, hcnb⟩ := hgood
  unfold fix_hole
  split_ifs with hR hL
  · have hc : ∀ row ∈ g, cellOf row c = none ∨ cellOf row (c + 1) = none := by
      simp only [List.all_eq_true, Bool.or_eq_true, Option.isNone_iff_eq_none] at hR
      exact hR
    obtain ⟨p1, p2, p3, p4, p5, p6⟩ :=
      merge_map_preserves n c g hrect hner hnec hcnb h2 hc
    exact ⟨n - 1, ⟨p1, p2, p3, p4⟩, p5 ▸ List.Perm.refl _, p6⟩
  · have he1 : c - 1 + 1 = c := by omega
    have he2 : c - 1 + 2 = c + 1 := by omega
    have hmapeq :
        (g.map fun row =>
          row.take (c - 1) ++ [combineFirst (cellOf row (c - 1)) (cellOf row c)]
            ++ row.drop (c + 1)) = g.map (mergeRow (c - 1)) := by
      apply List.map_congr_left
      intro row _
      unfold mergeRow
      rw [he1, he2]
    rw [hmapeq]
    have hc : ∀ row ∈ g, cellOf row (c - 1) = none ∨ cellOf row (c - 1 + 1) = none := by
      simp only [List.all_eq_true, Bool.or_eq_true, Option.isNone_iff_eq_none] at hL
      intro row hrow
      rw [he1]
      exact hL row hrow
    obtain ⟨p1, p2, p3, p4, p5, p6⟩ :=
      merge_map_preserves n (c - 1) g hrect hner hnec hcnb (by omega) hc
    exact ⟨n - 1, ⟨p1, p2, p3, p4⟩, p5 ▸ List.Perm.refl _, p6⟩
  · have hconf : ∃ row ∈ g, (cellOf row c).isSome ∧ (cellOf row (c + 1)).isSome := by
      simp only [List.all_eq_true, not_forall] at hR
      obtain ⟨row, hrow, hfalse⟩ := hR
      have hconj : ¬cellOf row c = none ∧ ¬cellOf row (c + 1) = none := by
        simpa [Option.isNone_iff_eq_none] using hfalse
      exact ⟨row, hrow, Option.isSome_iff_ne_none.mpr hconj.1,
        Option.isSome_iff_ne_none.mpr hconj.2⟩
    obtain ⟨p1, p2, p3, p4, p5, p6⟩ :=
      swap_mapIdx_preserves n c S g hrect hner hnec hcnb h2 hconf
    exact ⟨n, ⟨p1, p2, p3, p4⟩, p5, p6⟩

/-! ### The hole-resolution loop preserves the invariant and the values -/

theorem cleanLoop_ok (fuel : Nat) (subs : List (Finset Nat)) :
    ∀ (n : Nat) (g g' : Grid), GoodGrid n g →
      (∀ s ∈ subs, s.Nonempty ∧ s ⊆ Finset.range g.length) →
      cleanLoop fuel subs g = .ok g' →
      ∃ m, GoodGrid m g' ∧ List.Perm (gridVals g') (gridVals g) ∧ g'.length = g.length := by
  induction fuel with
  | zero =>
    intro n g g' _ _ h
    exact absurd h (by simp [cleanLoop])
  | succ fuel ih =>
    intro n g g' hgood hsubs hok
    obtain ⟨d, hd, hde⟩ := find_holes_ok subs g hsubs hgood.2.1
    unfold cleanLoop at hok
    split at hok
    case _ e heq =>
      rw [hd] at heq
      exact absurd heq (by simp)
    case _ holes heq =>
    have hholes : d = holes := by
      rw [hd] at heq
      exact Except.ok.inj heq
    subst hholes
    split at hok
    case _ hmax =>
      have : g = g' := by simpa using hok
      subst this
      exact ⟨n, hgood, List.Perm.refl _, rfl⟩
    case _ idx hmax =>
      have hidxmem : idx ∈ d.map Prod.fst := List.max?_mem max_choice hmax
      obtain ⟨hs, row, hrow, hhole⟩ := hde (idx, dictGet d idx) (dictGet_mem d idx hidxmem)
      have hrmem : row ∈ g := List.mem_iff_getElem?.mpr ⟨_, hrow⟩
      have hrl : row.length = n := hgood.1 row hrmem
      obtain ⟨h1, h2, _, _, _⟩ := find_hole_in_row_interior row idx hhole
      rw [hrl] at h2
      obtain ⟨m, hgood2, hperm, hlen⟩ :=
        fix_hole_preserves n idx (dictGet d idx) g hgood h1 h2
      have hsubs2 : ∀ s ∈ subs,
          s.Nonempty ∧ s ⊆ Finset.range (fix_hole idx (dictGet d idx) g).length := by
        rw [hlen]
        exact hsubs
      obtain ⟨m2, hgood3, hperm2, hlen2⟩ := ih m _ g' hgood2 hsubs2 hok
      exact ⟨m2, hgood3, hperm2.trans hperm, hlen2.trans hlen⟩

/-! ### Normalization lemmas -/

theorem rowVals_ne_nil_iff (row : Row) : rowVals row ≠ [] ↔ row.any Option.isSome = true := by
  unfold rowVals
  rw [Ne, List.filterMap_eq_nil_iff, List.any_eq_true]
  constructor
  · intro h
    by_contra hno
    push_neg at hno
    refine h fun a ha => ?_
    cases a with
    | none => rfl
    | some s => exact absurd (by simp : (some s).isSome = true) (by simpa using hno (some s) ha)
  · rintro ⟨ce, hce, hsome⟩ hall
    cases ce with
    | none => simp at hsome
    | some s => exact absurd (hall (some s) hce) (by simp)

theorem rowVals_cons_none (l : Row) : rowVals (none :: l) = rowVals l := rfl

theorem rowVals_cons_some (s : String) (l : Row) :
    rowVals (some s :: l) = s :: rowVals l := rfl

theorem rowVals_map_normalizeCell (row : List String) :
    rowVals (row.map normalizeCell) = row.filter fun s => !isBlank s := by
  induction row with
  | nil => rfl
  | cons s rest ih =>
    rw [List.map_cons]
    by_cases hb : isBlank s
    · rw [show normalizeCell s = none by simp [normalizeCell, hb], rowVals_cons_none, ih,
        List.filter_cons_of_neg (by simpa using hb)]
    · rw [show normalizeCell s = some s by simp [normalizeCell, hb], rowVals_cons_some, ih,
        List.filter_cons_of_pos (by simpa using hb)]

theorem gridVals_replaceBlank (g : List (List String)) :
    gridVals (replaceBlank g) = rawVals g := by
  induction g with
  | nil => rfl
  | cons row rest ih =>
    unfold replaceBlank at ih ⊢
    simp only [List.map_cons, gridVals_cons]
    rw [rowVals_map_normalizeCell, ih]
    rfl

theorem cellsNonBlank_replaceBlank (g : List (List String)) :
    CellsNonBlank (replaceBlank g) := by
  intro row hrow ce hce s hs
  rcases List.mem_map.mp hrow with ⟨row0, _, rfl⟩
  rcases List.mem_map.mp hce with ⟨s0, _, rfl⟩
  unfold normalizeCell at hs
  by_cases hb : isBlank s0
  · rw [if_pos hb] at hs
    exact absurd hs (by simp)
  · rw [if_neg hb] at hs
    rw [← Option.some_inj.mp hs]
    simpa using hb

theorem noEmptyRow_dropEmptyRows (g : Grid) : NoEmptyRow (dropEmptyRows g) := by
  intro row hrow
  rw [rowVals_ne_nil_iff]
  exact (List.mem_filter.mp hrow).2

theorem gridVals_dropEmptyRows (g : Grid) : gridVals (dropEmptyRows g) = gridVals g := by
  induction g with
  | nil => rfl
  | cons row rest ih =>
    unfold dropEmptyRows at ih ⊢
    by_cases hk : row.any Option.isSome
    · rw [@List.filter_cons_of_pos _ (fun row => row.any Option.isSome) row rest hk,
        gridVals_cons, gridVals_cons, ih]
    · have hnil : rowVals row = [] := by
        by_contra hne
        exact hk ((rowVals_ne_nil_iff row).mp hne)
      rw [@List.filter_cons_of_neg _ (fun row => row.any Option.isSome) row rest hk,
        gridVals_cons, hnil, List.nil_append, ih]

theorem row_reconstruct (row : Row) :
    (List.range row.length).map (cellOf row) = row := by
  induction row with
  | nil => rfl
  | cons a rest ih =>
    rw [List.length_cons, List.range_succ_eq_map, List.map_cons, List.map_map]
    have h0 : cellOf (a :: rest) 0 = a := by simp [cellOf]
    have hcomp : cellOf (a :: rest) ∘ Nat.succ = cellOf rest := by
      funext i
      simp only [Function.comp_apply]
      exact cellOf_cons_succ a rest i
    rw [h0, hcomp, ih]

theorem filter_filterMap_of_none {l : List Nat} {p : Nat → Bool} {f : Nat → Cell}
    (h : ∀ i ∈ l, p i = false → f i = none) :
    (l.filter p).filterMap f = l.filterMap f := by
  induction l with
  | nil => rfl
  | cons a rest ih =>
    have ih2 := ih fun i hi hpi => h i (List.mem_cons_of_mem _ hi) hpi
    by_cases hp : p a
    · rw [List.filter_cons_of_pos hp, List.filterMap_cons, List.filterMap_cons, ih2]
    · have hfa : f a = none := h a (List.mem_cons_self _ _) (by simpa using hp)
      rw [List.filter_cons_of_neg hp, List.filterMap_cons, hfa, ih2]

/-- Dropping all-`NaN` columns does not change a member row's values. -/
theorem rowVals_keepCols (g : Grid) (row : Row) (hlen : row.length = ncols g)
    (hmem : row ∈ g) :
    rowVals (((List.range (ncols g)).filter (colNonEmpty g)).map (cellOf row)) =
      rowVals row := by
  unfold rowVals
  rw [List.filterMap_map]
  have hid : (some ∘ cellOf row) = fun j => some (cellOf row j) := rfl
  have h1 : ((List.range (ncols g)).filter (colNonEmpty g)).filterMap (id ∘ cellOf row) =
      (List.range (ncols g)).filterMap (id ∘ cellOf row) := by
    apply filter_filterMap_of_none
    intro i _ hfalse
    have : ¬(cellOf row i).isSome := by
      intro hsome
      have : colNonEmpty g i = true := by
        unfold colNonEmpty
        rw [List.any_eq_true]
        exact ⟨row, hmem, hsome⟩
      rw [this] at hfalse
      exact absurd hfalse (by simp)
    simpa [Option.isSome_iff_ne_none] using this
  rw [h1, ← hlen]
  have : (List.range row.length).filterMap (id ∘ cellOf row) =
      ((List.range row.length).map (cellOf row)).filterMap id := by
    rw [List.filterMap_map]
  rw [this, row_reconstruct]

/-- `dropna(axis=1)` on a rectangular grid: the result satisfies the loop
invariant (given no empty rows and non-blank cells) and keeps all values. -/
theorem dropEmptyCols_preserves (g : Grid) (hrect : RectN g (ncols g))
    (hner : NoEmptyRow g) (hcnb : CellsNonBlank g) :
    RectN (dropEmptyCols g) (((List.range (ncols g)).filter (colNonEmpty g)).length) ∧
      NoEmptyRow (dropEmptyCols g) ∧
      NoEmptyColsN (dropEmptyCols g) (((List.range (ncols g)).filter (colNonEmpty g)).length) ∧
      CellsNonBlank (dropEmptyCols g) ∧
      gridVals (dropEmptyCols g) = gridVals g ∧
      (dropEmptyCols g).length = g.length := by
  set keep := (List.range (ncols g)).filter (colNonEmpty g) with hkeep
  have hdef : dropEmptyCols g = g.map fun row => keep.map fun j => cellOf row j := rfl
  have hvals : ∀ row ∈ g, rowVals (keep.map fun j => cellOf row j) = rowVals row := by
    intro row hrow
    exact rowVals_keepCols g row (hrect row hrow) hrow
  refine ⟨?_, ?_, ?_, ?_, ?_, by rw [hdef]; simp⟩
  · intro row' hrow'
    rw [hdef] at hrow'
    rcases List.mem_map.mp hrow' with ⟨row, _, rfl⟩
    simp
  · intro row' hrow'
    rw [hdef] at hrow'
    rcases List.mem_map.mp hrow' with ⟨row, hrow, rfl⟩
    rw [hvals row hrow]
    exact hner row hrow
  · intro j hj
    obtain ⟨jj, hjj⟩ : ∃ jj, keep[j]? = some jj := by
      cases hx : keep[j]? with
      | none =>
        rw [List.getElem?_eq_none_iff] at hx
        omega
      | some v => exact ⟨v, rfl⟩
    have hjmem : jj ∈ keep := List.mem_iff_getElem?.mpr ⟨j, hjj⟩
    have hcne : colNonEmpty g jj = true := (List.mem_filter.mp hjmem).2
    rcases List.any_eq_true.mp hcne with ⟨row, hrow, hsome⟩
    refine ⟨keep.map fun jj => cellOf row jj, by rw [hdef]; exact List.mem_map_of_mem _ hrow, ?_⟩
    unfold cellOf
    rw [List.getElem?_map, hjj]
    simpa using hsome
  · intro row' hrow' ce hce s hs
    rw [hdef] at hrow'
    rcases List.mem_map.mp hrow' with ⟨row, hrow, rfl⟩
    rcases List.mem_map.mp hce with ⟨jj, _, rfl⟩
    exact hcnb row hrow _ (cellOf_some_mem row jj s hs) s rfl
  · rw [hdef]
    exact gridVals_map_congr g _ hvals

/-! ### Partition facts: the returned row sets are non-empty subsets of the
row range -/

theorem foldl_sdiff_subset (cur : Finset Nat) (l : List (Finset Nat)) :
    l.foldl (fun s t => s \ t) cur ⊆ cur := by
  induction l generalizing cur with
  | nil => exact fun x hx => hx
  | cons t rest ih =>
    rw [List.foldl_cons]
    exact fun x hx => Finset.sdiff_subset (ih (cur \ t) hx)

theorem partition_facts_aux (fuel : Nat) :
    (∀ fr g s, s ∈ partitionFuel fuel fr g → s.Nonempty ∧ s ⊆ Finset.range (nrows g)) ∧
      (∀ fr lc g cur acc, cur ⊆ Finset.range (nrows g) →
        (∀ s ∈ acc, s.Nonempty ∧ s ⊆ Finset.range (nrows g)) →
        ∀ s ∈ partitionLoop fuel fr lc g cur acc,
          s.Nonempty ∧ s ⊆ Finset.range (nrows g)) := by
  induction fuel with
  | zero =>
    constructor
    · intro fr g s hs
      exact absurd hs (by simp [partitionFuel])
    · intro fr lc g cur acc hcur hacc s hs
      unfold partitionLoop at hs
      rcases List.mem_append.mp hs with hs | hs
      · exact hacc s hs
      · by_cases hne : cur.Nonempty
        · rw [if_pos hne] at hs
          rcases List.mem_singleton.mp hs with rfl
          exact ⟨hne, hcur⟩
        · rw [if_neg hne] at hs
          exact absurd hs (List.not_mem_nil s)
  | succ fuel ih =>
    obtain ⟨ihF, ihL⟩ := ih
    constructor
    · intro fr g s hs
      unfold partitionFuel at hs
      exact ihL fr (lastNonNullCol fr g) g _ []
        (fun x hx => Finset.mem_of_mem_filter x (by exact hx))
        (fun s hs2 => absurd hs2 (List.not_mem_nil s)) s hs
    · intro fr lc g cur acc hcur hacc s hs
      unfold partitionLoop at hs
      split at hs
      case _ =>
        rcases List.mem_append.mp hs with hs | hs
        · exact hacc s hs
        · by_cases hne : cur.Nonempty
          · rw [if_pos hne] at hs
            rcases List.mem_singleton.mp hs with rfl
            exact ⟨hne, hcur⟩
          · rw [if_neg hne] at hs
            exact absurd hs (List.not_mem_nil s)
      case _ nfr _ =>
        refine ihL _ lc g _ _ ?_ ?_ s hs
        · exact fun x hx => hcur (foldl_sdiff_subset cur _ hx)
        · intro t ht
          rcases List.mem_append.mp ht with ht | ht
          · exact hacc t ht
          · exact ihF nfr g t ht

theorem partition_facts (fr : Nat) (g : Grid) :
    ∀ s ∈ partition_into_subtables fr g, s.Nonempty ∧ s ⊆ Finset.range (nrows g) :=
  (partition_facts_aux (partitionDefaultFuel g)).1 fr g

/-! ### Partition union: the loop only ever grows the union, and with a
value in cell (0,0) the initial candidate set is the whole row range -/

/-- Union of a list of row sets. -/
def unionList (l : List (Finset Nat)) : Finset Nat := l.foldr (· ∪ ·) ∅

theorem unionList_append (l1 l2 : List (Finset Nat)) :
    unionList (l1 ++ l2) = unionList l1 ∪ unionList l2 := by
  induction l1 with
  | nil => simp [unionList]
  | cons t rest ih =>
    unfold unionList at ih ⊢
    rw [List.cons_append, List.foldr_cons, List.foldr_cons, ih, Finset.union_assoc]

theorem foldl_sdiff_cover (cur : Finset Nat) (l : List (Finset Nat)) :
    cur ⊆ l.foldl (fun s t => s \ t) cur ∪ unionList l := by
  induction l generalizing cur with
  | nil => simp [unionList]
  | cons t rest ih =>
    rw [List.foldl_cons]
    intro x hx
    unfold unionList
    rw [List.foldr_cons]
    by_cases hxt : x ∈ t
    · exact Finset.mem_union_right _ (Finset.mem_union_left _ hxt)
    · have := ih (cur \ t) (Finset.mem_sdiff.mpr ⟨hx, hxt⟩)
      rcases Finset.mem_union.mp this with h | h
      · exact Finset.mem_union_left _ h
      · exact Finset.mem_union_right _ (Finset.mem_union_right _ h)

theorem partitionLoop_union (fuel : Nat) :
    ∀ fr lc g cur acc,
      unionList acc ∪ cur ⊆ unionList (partitionLoop fuel fr lc g cur acc) := by
  induction fuel with
  | zero =>
    intro fr lc g cur acc
    unfold partitionLoop
    rw [unionList_append]
    by_cases hne : cur.Nonempty
    · rw [if_pos hne]
      intro x hx
      rcases Finset.mem_union.mp hx with h | h
      · exact Finset.mem_union_left _ h
      · exact Finset.mem_union_right _ (by simpa [unionList] using h)
    · rw [if_neg hne]
      rw [Finset.not_nonempty_iff_eq_empty.mp hne]
      simp
  | succ fuel ih =>
    intro fr lc g cur acc
    unfold partitionLoop
    split
    case _ =>
      rw [unionList_append]
      by_cases hne : cur.Nonempty
      · rw [if_pos hne]
        intro x hx
        rcases Finset.mem_union.mp hx with h | h
        · exact Finset.mem_union_left _ h
        · exact Finset.mem_union_right _ (by simpa [unionList] using h)
      · rw [if_neg hne]
        rw [Finset.not_nonempty_iff_eq_empty.mp hne]
        simp
    case _ nfr _ =>
      refine Finset.Subset.trans ?_ (ih _ lc g _ _)
      rw [unionList_append]
      intro x hx
      rcases Finset.mem_union.mp hx with h | h
      · exact Finset.mem_union_left _ (Finset.mem_union_left _ h)
      · rcases Finset.mem_union.mp (foldl_sdiff_cover cur (partitionFuel fuel nfr g) h) with
          h2 | h2
        · exact Finset.mem_union_right _ h2
        · exact Finset.mem_union_left _ (Finset.mem_union_right _ h2)

theorem unionList_subset (l : List (Finset Nat)) (r : Finset Nat)
    (h : ∀ s ∈ l, s ⊆ r) : unionList l ⊆ r := by
  induction l with
  | nil => simp [unionList]
  | cons t rest ih =>
    unfold unionList at ih ⊢
    rw [List.foldr_cons]
    exact Finset.union_subset (h t (List.mem_cons_self t rest))
      (ih fun s hs => h s (List.mem_cons_of_mem _ hs))

theorem subtableFirstCol_zero (g : Grid) (h0 : (cellAt g 0 0).isSome) :
    subtableFirstCol 0 g = 0 := by
  have hpos : 1 ≤ ncols g := by
    unfold cellAt cellOf at h0
    cases hg : g[0]? with
    | none => rw [hg] at h0; simp at h0
    | some row0 =>
      rw [hg] at h0
      simp only [Option.getD_some] at h0
      cases hr : row0[0]? with
      | none => rw [hr] at h0; simp at h0
      | some ce =>
        have hlen : 0 < row0.length := by
          by_contra hle
          rw [List.getElem?_eq_none_iff.mpr (by omega)] at hr
          exact absurd hr (by simp)
        have hhead : g.head? = some row0 := by
          cases g with
          | nil => simp at hg
          | cons r rest => simpa using hg
        unfold ncols
        rw [hhead]
        simpa using hlen
  obtain ⟨m, hm⟩ : ∃ m, ncols g = m + 1 := ⟨ncols g - 1, by omega⟩
  unfold subtableFirstCol
  rw [hm, List.range_succ_eq_map, List.find?_cons_of_pos _ (by simpa using h0)]
  rfl

theorem find_outer_end_col0 (g : Grid) (h0 : (cellAt g 0 0).isSome) :
    find_outer_end 0 g = (nrows g : Int) - 1 := by
  unfold find_outer_end
  rw [subtableFirstCol_zero g h0]
  simp only []
  have hnone : (List.range' 0 (nrows g - 0)).find?
      (fun i => (List.range 0).any fun x => (cellAt g i x).isSome) = none := by
    rw [List.find?_eq_none]
    intro i _
    simp
  rw [hnone]

/-- With a value in cell (0,0) (the usual table whose header starts at
column 0), the segmentation covers every row index. -/
theorem partition_union_col0 (g : Grid) (h0 : (cellAt g 0 0).isSome) :
    unionList (partition_into_subtables 0 g) = Finset.range (nrows g) := by
  apply Finset.Subset.antisymm
  · exact unionList_subset _ _ fun s hs => (partition_facts 0 g s hs).2
  · have hpos : 0 < partitionDefaultFuel g :=
      pow_pos (by omega) 3
    obtain ⟨F, hF⟩ : ∃ F, partitionDefaultFuel g = F + 1 :=
      ⟨partitionDefaultFuel g - 1, by omega⟩
    unfold partition_into_subtables
    rw [hF]
    unfold partitionFuel
    intro x hx
    refine partitionLoop_union F 0 (lastNonNullCol 0 g) g _ [] ?_
    refine Finset.mem_union_right _ (Finset.mem_filter.mpr ⟨hx, by omega, ?_⟩)
    rw [find_outer_end_col0 g h0]
    rw [Finset.mem_range] at hx
    omega

/-! ### Assembling `clean_table` -/

/-- After the three normalization steps, a rectangular input grid satisfies
the loop invariant and has lost no non-blank value. -/
theorem clean_table_normalized (raw : List (List String)) (hraw : IsRect raw) :
    ∃ m, GoodGrid m (dropEmptyCols (dropEmptyRows (replaceBlank raw))) ∧
      gridVals (dropEmptyCols (dropEmptyRows (replaceBlank raw))) = rawVals raw := by
  set H := ((raw.head?).map List.length).getD 0 with hH
  have hrect1 : RectN (replaceBlank raw) H := by
    intro row hrow
    rcases List.mem_map.mp hrow with ⟨row0, hrow0, rfl⟩
    rw [List.length_map]
    exact hraw row0 hrow0
  have hrect2 : RectN (dropEmptyRows (replaceBlank raw)) H := fun row hrow =>
    hrect1 row (List.mem_of_mem_filter hrow)
  have hrect2n : RectN (dropEmptyRows (replaceBlank raw))
      (ncols (dropEmptyRows (replaceBlank raw))) := by
    intro row hrow
    have hrlen := hrect2 row hrow
    have hne : dropEmptyRows (replaceBlank raw) ≠ [] := by
      intro hnil
      rw [hnil] at hrow
      exact absurd hrow (List.not_mem_nil row)
    obtain ⟨r, rest, hcons⟩ := List.exists_cons_of_ne_nil hne
    have hnc : ncols (dropEmptyRows (replaceBlank raw)) = H := by
      unfold ncols
      rw [hcons]
      simpa using hrect2 r (by rw [hcons]; exact List.mem_cons_self r rest)
    rw [hnc]
    exact hrlen
  have hner2 : NoEmptyRow (dropEmptyRows (replaceBlank raw)) :=
    noEmptyRow_dropEmptyRows (replaceBlank raw)
  have hcnb2 : CellsNonBlank (dropEmptyRows (replaceBlank raw)) := fun row hrow =>
    cellsNonBlank_replaceBlank raw row (List.mem_of_mem_filter hrow)
  obtain ⟨p1, p2, p3, p4, p5, _⟩ :=
    dropEmptyCols_preserves (dropEmptyRows (replaceBlank raw)) hrect2n hner2 hcnb2
  refine ⟨_, ⟨p1, p2, p3, p4⟩, ?_⟩
  rw [p5, gridVals_dropEmptyRows, gridVals_replaceBlank]

theorem isBlank_empty : isBlank "" = true := rfl

/-- `clean_table` with the `let` chain unfolded. -/
theorem clean_table_eq (raw : List (List String)) :
    clean_table raw =
      match cleanLoop (cleanFuel (dropEmptyCols (dropEmptyRows (replaceBlank raw))))
        (partition_into_subtables 0 (dropEmptyCols (dropEmptyRows (replaceBlank raw))))
        (dropEmptyCols (dropEmptyRows (replaceBlank raw))) with
      | .error e => .error e
      | .ok t2 => .ok (t2.map fun row => row.map fun c => c.getD "") := rfl

/-- The final `replace(np.nan, "")` keeps exactly the values (all values are
non-blank by the invariant). -/
theorem rawVals_getD (g : Grid) (hcnb : CellsNonBlank g) :
    rawVals (g.map fun row => row.map fun c => c.getD "") = gridVals g := by
  induction g with
  | nil => rfl
  | cons row rest ih =>
    have hrow : (row.map fun c => c.getD "").filter (fun s => !isBlank s) = rowVals row := by
      have hcells : ∀ ce ∈ row, ∀ s, ce = some s → isBlank s = false :=
        hcnb row (List.mem_cons_self row rest)
      clear ih hcnb
      induction row with
      | nil => rfl
      | cons ce rs ih2 =>
        have ih3 := ih2 fun c hc s hs => hcells c (List.mem_cons_of_mem _ hc) s hs
        cases ce with
        | none =>
          rw [List.map_cons, rowVals_cons_none]
          rw [show (none : Cell).getD "" = "" from rfl]
          rw [List.filter_cons_of_neg (by simp [isBlank_empty])]
          exact ih3
        | some s =>
          rw [List.map_cons, rowVals_cons_some]
          rw [show (some s : Cell).getD "" = s from rfl]
          rw [List.filter_cons_of_pos
            (by simp [hcells (some s) (List.mem_cons_self _ _) s rfl])]
          rw [ih3]
    have ih4 := ih fun r hr => hcnb r (List.mem_cons_of_mem _ hr)
    show (row.map fun c => c.getD "").filter (fun s => !isBlank s) ++
        rawVals (rest.map fun r => r.map fun c => c.getD "") = rowVals row ++ gridVals rest
    rw [hrow, ih4]

/-- C2: `clean_table` conserves content — for every rectangular grid the
multiset of non-blank cell values of the output equals that of the input;
normalization, merges and row-local swaps relocate values but never create,
duplicate, or drop a non-blank value. -/
theorem clean_table_conserves (raw out : List (List String)) (hraw : IsRect raw)
    (hok : clean_table raw = .ok out) :
    (rawVals out : Multiset String) = (rawVals raw : Multiset String) := by
  obtain ⟨m, hgood, hvals⟩ := clean_table_normalized raw hraw
  rw [clean_table_eq] at hok
  split at hok
  case _ e heq => exact absurd hok (by simp)
  case _ t2 heq =>
    have hsubs := partition_facts 0 (dropEmptyCols (dropEmptyRows (replaceBlank raw)))
    obtain ⟨m2, hgood2, hperm, _⟩ :=
      cleanLoop_ok _ _ m _ t2 hgood (fun s hs => hsubs s hs) heq
    have hout : out = t2.map fun row => row.map fun c => c.getD "" := by
      simpa using hok.symm
    rw [hout, rawVals_getD t2 hgood2.2.2.2, ← hvals]
    exact Multiset.coe_eq_coe.mpr hperm

/-- C3: for every rectangular input grid, the grid `clean_table` returns is
rectangular, every cell is an explicit string (blank cells are the empty
string by construction of the final replacement), and no row and no column
of the output is entirely blank — stated unconditionally: in the degenerate
case the output has no rows and no columns, so both clauses hold vacuously. -/
theorem clean_table_shape (raw out : List (List String)) (hraw : IsRect raw)
    (hok : clean_table raw = .ok out) :
    IsRect out ∧ (∀ row ∈ out, ∃ s ∈ row, isBlank s = false) ∧
      (∀ j < ((out.head?).map List.length).getD 0,
        ∃ row ∈ out, ∃ s, row[j]? = some s ∧ isBlank s = false) := by
  obtain ⟨m, hgood, _⟩ := clean_table_normalized raw hraw
  rw [clean_table_eq] at hok
  split at hok
  case _ e heq => exact absurd hok (by simp)
  case _ t2 heq =>
    have hsubs := partition_facts 0 (dropEmptyCols (dropEmptyRows (replaceBlank raw)))
    obtain ⟨m2, hgood2, _, _⟩ :=
      cleanLoop_ok _ _ m _ t2 hgood (fun s hs => hsubs s hs) heq
    obtain ⟨hrect2, hner2, hnec2, hcnb2⟩ := hgood2
    have hout : out = t2.map fun row => row.map fun c => c.getD "" := by
      simpa using hok.symm
    have hlens : ∀ row ∈ out, row.length = m2 := by
      intro row hrow
      rw [hout] at hrow
      rcases List.mem_map.mp hrow with ⟨row0, hrow0, rfl⟩
      rw [List.length_map]
      exact hrect2 row0 hrow0
    refine ⟨?_, ?_, ?_⟩
    · intro row hrow
      rw [hlens row hrow]
      cases hcase : out with
      | nil =>
        rw [hcase] at hrow
        exact absurd hrow (List.not_mem_nil row)
      | cons r rest =>
        have : r.length = m2 := hlens r (by rw [hcase]; exact List.mem_cons_self r rest)
        simp [this]
    · intro row hrow
      rw [hout] at hrow
      rcases List.mem_map.mp hrow with ⟨row0, hrow0, rfl⟩
      have hvals0 := hner2 row0 hrow0
      rcases List.exists_mem_of_ne_nil _ hvals0 with ⟨s, hs⟩
      rcases List.mem_filterMap.mp hs with ⟨ce, hce, hid⟩
      cases ce with
      | none => exact absurd hid (by simp)
      | some s2 =>
        have hs2 : s2 = s := by simpa using hid
        subst hs2
        refine ⟨s2, ?_, hcnb2 row0 hrow0 (some s2) hce s2 rfl⟩
        have : (some s2 : Cell).getD "" = s2 := rfl
        exact this ▸ List.mem_map_of_mem (fun c => c.getD "") hce
    · intro j hj
      have hm2 : ((out.head?).map List.length).getD 0 = m2 ∨ out = [] := by
        cases hcase : out with
        | nil => exact Or.inr rfl
        | cons r rest =>
          refine Or.inl ?_
          have : r.length = m2 := hlens r (by rw [hcase]; exact List.mem_cons_self r rest)
          simpa using this
      rcases hm2 with hm2 | hm2
      · rw [hm2] at hj
        rcases hnec2 j hj with ⟨row0, hrow0, hsome⟩
        cases hcell : cellOf row0 j with
        | none => rw [hcell] at hsome; exact absurd hsome (by simp)
        | some s =>
          refine ⟨row0.map fun c => c.getD "",
            hout ▸ List.mem_map_of_mem (fun row => row.map fun c => c.getD "") hrow0,
            s, ?_, hcnb2 row0 hrow0 (some s) (cellOf_some_mem row0 j s hcell) s rfl⟩
          rw [List.getElem?_map]
          unfold cellOf at hcell
          cases hraw0 : row0[j]? with
          | none => rw [hraw0] at hcell; exact absurd hcell (by simp)
          | some ce =>
            rw [hraw0] at hcell
            simp only [Option.getD_some] at hcell
            rw [hcell]
            rfl
      · rw [hm2] at hj
        simp at hj

/-! ### The second pass of `clean_table` -/

/-- An output of `clean_table` re-normalizes to its own internal grid:
blanks come back as `NaN` and nothing else changes. -/
theorem replaceBlank_getD (t2 : Grid) (hcnb : CellsNonBlank t2) :
    replaceBlank (t2.map fun row => row.map fun c => c.getD "") = t2 := by
  unfold replaceBlank
  rw [List.map_map]
  conv_rhs => rw [← List.map_id t2]
  apply List.map_congr_left
  intro row hrow
  simp only [Function.comp_apply, List.map_map, id]
  conv_rhs => rw [← List.map_id row]
  apply List.map_congr_left
  intro ce hce
  simp only [Function.comp_apply, id]
  cases ce with
  | none =>
    show normalizeCell "" = none
    simp [normalizeCell, isBlank_empty]
  | some s =>
    show normalizeCell s = some s
    simp [normalizeCell, hcnb row hrow (some s) hce s rfl]

theorem clean_table_second_pass_core (t2 : Grid) (m2 : Nat) (hgood : GoodGrid m2 t2)
    (hnh : find_holes (partition_into_subtables 0 t2) t2 = .ok []) :
    clean_table (t2.map fun row => row.map fun c => c.getD "") =
      .ok (t2.map fun row => row.map fun c => c.getD "") := by
  obtain ⟨hrect2, hner2, hnec2, hcnb2⟩ := hgood
  have hrb : replaceBlank (t2.map fun row => row.map fun c => c.getD "") = t2 :=
    replaceBlank_getD t2 hcnb2
  have hder : dropEmptyRows t2 = t2 :=
    List.filter_eq_self.mpr fun row hrow => (rowVals_ne_nil_iff row).mp (hner2 row hrow)
  have hdec : dropEmptyCols t2 = t2 := by
    by_cases ht2 : t2 = []
    · rw [ht2]
      rfl
    · obtain ⟨r, rest, hcons⟩ := List.exists_cons_of_ne_nil ht2
      have hnct2 : ncols t2 = m2 := by
        unfold ncols
        rw [hcons]
        simpa using hrect2 r (by rw [hcons]; exact List.mem_cons_self r rest)
      have hkeep : (List.range (ncols t2)).filter (colNonEmpty t2) =
          List.range (ncols t2) := by
        apply List.filter_eq_self.mpr
        intro j hj
        rw [List.mem_range] at hj
        rcases hnec2 j (by omega) with ⟨row, hrow, hsome⟩
        unfold colNonEmpty
        rw [List.any_eq_true]
        exact ⟨row, hrow, hsome⟩
      show (List.map fun row => ((List.range (ncols t2)).filter (colNonEmpty t2)).map
        fun j => cellOf row j) t2 = t2
      rw [hkeep]
      conv_rhs => rw [← List.map_id t2]
      apply List.map_congr_left
      intro row hrow
      have : List.range (ncols t2) = List.range row.length := by
        rw [hnct2, hrect2 row hrow]
      rw [id, this]
      exact row_reconstruct row
  have ht : dropEmptyCols (dropEmptyRows (replaceBlank
      (t2.map fun row => row.map fun c => c.getD ""))) = t2 := by
    rw [hrb, hder, hdec]
  rw [clean_table_eq, ht]
  have hloop : cleanLoop (cleanFuel t2) (partition_into_subtables 0 t2) t2 = .ok t2 := by
    obtain ⟨F, hF⟩ : ∃ F, cleanFuel t2 = F + 1 := ⟨_, rfl⟩
    rw [hF]
    unfold cleanLoop
    rw [hnh]
    rfl
  rw [hloop]

/-! ### Claim theorems -/

/-- C1 (amended): `clean_table` is not idempotent in general (see the
counterexample); a second application returns its input unchanged whenever
hole detection over the output's own fresh segmentation reports no holes —
the output always satisfies the normalization invariants, so the second
pass reduces to exactly that hole check. -/
theorem clean_table_second_pass (raw g1 : List (List String)) (hraw : IsRect raw)
    (hok : clean_table raw = .ok g1)
    (hnh : find_holes (partition_into_subtables 0 (replaceBlank g1))
      (replaceBlank g1) = .ok []) :
    clean_table g1 = .ok g1 := by
  obtain ⟨m, hgood, _⟩ := clean_table_normalized raw hraw
  rw [clean_table_eq] at hok
  split at hok
  case _ e heq => exact absurd hok (by simp)
  case _ t2 heq =>
    have hsubs := partition_facts 0 (dropEmptyCols (dropEmptyRows (replaceBlank raw)))
    obtain ⟨m2, hgood2, _, _⟩ :=
      cleanLoop_ok _ _ m _ t2 hgood (fun s hs => hsubs s hs) heq
    have hg1 : g1 = t2.map fun row => row.map fun c => c.getD "" := by
      simpa using hok.symm
    have hrb : replaceBlank g1 = t2 := by
      rw [hg1]
      exact replaceBlank_getD t2 hgood2.2.2.2
    rw [hg1]
    apply clean_table_second_pass_core t2 m2 hgood2
    rw [hrb] at hnh
    exact hnh

/-- C1 witness: a grid whose output re-segments without holes; the second
pass returns it unchanged. -/
theorem clean_table_second_pass_witness :
    clean_table [["A", "B"], ["C", "D"]] = .ok [["A", "B"], ["C", "D"]] :=
  clean_table_second_pass [["A", "B"], ["C", "D"]] [["A", "B"], ["C", "D"]]
    (by decide) rfl rfl

/-- C1 counterexample: `clean_table` is not idempotent. On the grid
`[[A,"",B],[C,D,""],["",E,F]]` the first pass swaps columns 1 and 2 in all
three rows of the single subtable; the second pass segments the result
differently (the first row now ends at column 1), finds a new hole and
produces a different grid. -/
theorem clean_table_not_idempotent :
    clean_table [["A", "", "B"], ["C", "D", ""], ["", "E", "F"]] =
      .ok [["A", "B", ""], ["C", "", "D"], ["", "F", "E"]] ∧
    clean_table [["A", "B", ""], ["C", "", "D"], ["", "F", "E"]] =
      .ok [["A", "B", ""], ["C", "D", ""], ["", "E", "F"]] ∧
    ([["A", "B", ""], ["C", "D", ""], ["", "E", "F"]] : List (List String)) ≠
      [["A", "B", ""], ["C", "", "D"], ["", "F", "E"]] :=
  ⟨rfl, rfl, by decide⟩

/-- C2 witness: the merge scenario conserves the values `A`, `B`, `C`. -/
theorem clean_table_conserves_witness :
    (rawVals [["A", "B"], ["", "C"]] : Multiset String) =
      (rawVals [["A", "", "B"], ["", "C", ""]] : Multiset String) :=
  clean_table_conserves [["A", "", "B"], ["", "C", ""]] [["A", "B"], ["", "C"]]
    (by decide) rfl

/-- C3 witness at the merge scenario. -/
theorem clean_table_shape_witness :
    IsRect [["A", "B"], ["", "C"]] ∧
      (∀ row ∈ ([["A", "B"], ["", "C"]] : List (List String)),
        ∃ s ∈ row, isBlank s = false) ∧
      (∀ j < ((([["A", "B"], ["", "C"]] : List (List String)).head?).map
          List.length).getD 0,
        ∃ row ∈ ([["A", "B"], ["", "C"]] : List (List String)),
          ∃ s, row[j]? = some s ∧ isBlank s = false) :=
  clean_table_shape [["A", "", "B"], ["", "C", ""]] [["A", "B"], ["", "C"]]
    (by decide) rfl

/-- C4 (amended): the row-index sets returned by the segmentation are
non-empty subsets of the row range, and when the first row has a value in
column 0 (the usual table form) their union is the whole row range; in
general the sets need not be pairwise disjoint and their union need not
cover the range (see the counterexample). -/
theorem partition_sets_spec :
    (∀ (fr : Nat) (g : Grid), ∀ s ∈ partition_into_subtables fr g,
        s.Nonempty ∧ s ⊆ Finset.range (nrows g)) ∧
      (∀ g : Grid, (cellAt g 0 0).isSome →
        unionList (partition_into_subtables 0 g) = Finset.range (nrows g)) :=
  ⟨partition_facts, partition_union_col0⟩

/-- C4 witness: full coverage on a 2-row grid whose header starts at
column 0. -/
theorem partition_sets_spec_witness :
    unionList (partition_into_subtables 0 [[some "a"], [some "b"]]) =
      Finset.range (nrows [[some "a"], [some "b"]]) :=
  partition_sets_spec.2 [[some "a"], [some "b"]] (by decide)

/-- C4 counterexample: on `[[_,a],[b,_]]` the segmentation returns `[{0}]`,
missing row 1 entirely; and on a 5-row grid the nested scan revisits row 4,
returning the set `{4}` twice, so the sets are not pairwise disjoint. -/
theorem partition_not_partition :
    (unionList (partition_into_subtables 0 [[none, some "a"], [some "b", none]]) ≠
        Finset.range (nrows [[none, some "a"], [some "b", none]])) ∧
      ¬ List.Pairwise (fun s t : Finset Nat => s ∩ t = ∅)
        (partition_into_subtables 0
          [[some "a", none, none], [none, some "b", none], [some "c", none, none],
            [some "e", none, none], [none, none, some "d"]]) := by
  decide

/-- C5 (amended): the nested-listing scenario — first row spanning columns
0–2, rows 1–2 indented to column 3, row 3 resuming at column 0 — segments
into TWO subtables, the nested block `{1,2}` first and the outer block
`{0,3}` second: rows 0 and 3 belong to one outer subtable, they are not
split into `{0}` and `{3}`. -/
theorem nested_listing_segments :
    partition_into_subtables 0
        [[some "a", some "b", some "c", none], [none, none, none, some "d"],
          [none, none, none, some "e"], [some "f", none, none, none]] =
      [{1, 2}, {0, 3}] := by
  decide

/-- C5 counterexample: the segmentation of the nested-listing scenario
contains the outer block `{0,3}` and does not contain `{0}`, contradicting
the claimed three subtables `{0}`, `{1,2}`, `{3}`. -/
theorem nested_listing_counterexample :
    ({0, 3} : Finset Nat) ∈ partition_into_subtables 0
        [[some "a", some "b", some "c", none], [none, none, none, some "d"],
          [none, none, none, some "e"], [some "f", none, none, none]] ∧
      ({0} : Finset Nat) ∉ partition_into_subtables 0
        [[some "a", some "b", some "c", none], [none, none, none, some "d"],
          [none, none, none, some "e"], [some "f", none, none, none]] := by
  decide

/-- Modelled from the spec's words for the merge result: "the merged
column's value is whichever of the two is non-empty (or empty if both
are)". Written right-biased so that agreement with the source's left-biased
`combine_first` is a consequence of the no-conflict check, not of the
definition. -/
def mergedCellSpec (a b : Cell) : Cell := if b.isSome then b else a

/-- C6: when no row of the whole grid has values in both columns `c` and
`c+1`, `fix_hole` returns the grid with the two columns collapsed into one
holding, in every row, whichever of the two cells is non-empty, all later
columns shifted left by one — and this right-merge is checked first: only
when it fails (some row uses both `c` and `c+1`) is the symmetric left
merge of `c-1` and `c` performed. On the scenario grid `clean_table` merges
columns 1–2 into a 2-column grid. -/
theorem fix_hole_merge_spec :
    (∀ (c : Nat) (S : Finset Nat) (g : Grid),
        (∀ row ∈ g, cellOf row c = none ∨ cellOf row (c + 1) = none) →
        fix_hole c S g = g.map fun row =>
          row.take c ++ [mergedCellSpec (cellOf row c) (cellOf row (c + 1))]
            ++ row.drop (c + 2)) ∧
      (∀ (c : Nat) (S : Finset Nat) (g : Grid), 1 ≤ c →
        (∃ row ∈ g, (cellOf row c).isSome ∧ (cellOf row (c + 1)).isSome) →
        (∀ row ∈ g, cellOf row (c - 1) = none ∨ cellOf row c = none) →
        fix_hole c S g = g.map fun row =>
          row.take (c - 1) ++ [mergedCellSpec (cellOf row (c - 1)) (cellOf row c)]
            ++ row.drop (c + 1)) ∧
      clean_table [["A", "", "B"], ["", "C", ""]] = .ok [["A", "B"], ["", "C"]] := by
  refine ⟨?_, ?_, rfl⟩
  · intro c S g hc
    unfold fix_hole
    rw [if_pos (List.all_eq_true.mpr fun row hrow => by
      rcases hc row hrow with h | h <;> simp [h])]
    apply List.map_congr_left
    intro row hrow
    unfold mergeRow
    rcases hc row hrow with h | h <;>
      rcases h2 : cellOf row c with _ | s <;>
      rcases h3 : cellOf row (c + 1) with _ | s2 <;>
      simp_all [combineFirst, mergedCellSpec]
  · intro c S g h1 hconf hc
    have hcond1 : ¬(g.all fun row =>
        (cellOf row c).isNone || (cellOf row (c + 1)).isNone) = true := by
      rcases hconf with ⟨row, hrow, hs1, hs2⟩
      intro hall
      have hthis := List.all_eq_true.mp hall row hrow
      rw [Bool.or_eq_true] at hthis
      rcases hthis with h | h
      · rw [Option.isNone_iff_eq_none] at h
        rw [h] at hs1
        exact absurd hs1 (by simp)
      · rw [Option.isNone_iff_eq_none] at h
        rw [h] at hs2
        exact absurd hs2 (by simp)
    unfold fix_hole
    rw [if_neg hcond1, if_pos (List.all_eq_true.mpr fun row hrow => by
      rcases hc row hrow with h | h <;> simp [h])]
    apply List.map_congr_left
    intro row hrow
    rcases hc row hrow with h | h <;>
      rcases h2 : cellOf row (c - 1) with _ | s <;>
      rcases h3 : cellOf row c with _ | s2 <;>
      simp_all [combineFirst, mergedCellSpec]

/-- C6 witness: the right merge on the scenario grid, via the spec-side
merged-cell description. -/
theorem fix_hole_merge_spec_witness :
    fix_hole 1 {0} [[some "A", none, some "B"], [none, some "C", none]] =
      [[some "A", some "B"], [none, some "C"]] := by
  have h := fix_hole_merge_spec.1 1 {0}
    [[some "A", none, some "B"], [none, some "C", none]] (by decide)
  exact h.trans (by decide)

/-- C7: when both merge directions conflict somewhere in the grid,
`fix_hole` keeps the dimensions and swaps the values of columns `c` and
`c+1` in exactly the rows of `rows_with_hole`, leaving every other row
untouched; in particular the scenario grid with row 0 as the only flagged
row becomes `[[A,B,""],[X,Y,Z]]`. -/
theorem fix_hole_swap_spec :
    (∀ (n c : Nat) (S : Finset Nat) (g : Grid), RectN g n → c + 2 ≤ n →
        (∃ row ∈ g, (cellOf row c).isSome ∧ (cellOf row (c + 1)).isSome) →
        (∃ row ∈ g, (cellOf row (c - 1)).isSome ∧ (cellOf row c).isSome) →
        (fix_hole c S g).length = g.length ∧
          ∀ (i : Nat) (row : Row), g[i]? = some row →
            (fix_hole c S g)[i]? =
              some (if i ∈ S then
                row.take c ++ [cellOf row (c + 1)] ++ [cellOf row c] ++ row.drop (c + 2)
              else row)) ∧
      fix_hole 1 {0} [[some "A", none, some "B"], [some "X", some "Y", some "Z"]] =
        [[some "A", some "B", none], [some "X", some "Y", some "Z"]] := by
  refine ⟨?_, rfl⟩
  intro n c S g hrect h2 hconf1 hconf2
  have hnotall : ∀ (p q : Nat),
      (∃ row ∈ g, (cellOf row p).isSome ∧ (cellOf row q).isSome) →
      ¬(g.all fun row => (cellOf row p).isNone || (cellOf row q).isNone) = true := by
    intro p q hconf hall
    rcases hconf with ⟨row, hrow, hs1, hs2⟩
    have hthis := List.all_eq_true.mp hall row hrow
    rw [Bool.or_eq_true] at hthis
    rcases hthis with h | h
    · rw [Option.isNone_iff_eq_none] at h
      rw [h] at hs1
      exact absurd hs1 (by simp)
    · rw [Option.isNone_iff_eq_none] at h
      rw [h] at hs2
      exact absurd hs2 (by simp)
  unfold fix_hole
  rw [if_neg (hnotall c (c + 1) hconf1), if_neg (hnotall (c - 1) c hconf2)]
  constructor
  · simp
  · intro i row hi
    rw [List.getElem?_mapIdx, hi]
    simp only [Option.map_some']
    by_cases hiS : i ∈ S
    · rw [if_pos hiS, if_pos hiS,
        swapRow_decomp c row (by rw [hrect row (List.mem_iff_getElem?.mpr ⟨i, hi⟩)]; omega)]
    · rw [if_neg hiS, if_neg hiS]

/-- C7 witness: row 0 of the scenario grid after the local swap. -/
theorem fix_hole_swap_spec_witness :
    (fix_hole 1 {0} [[some "A", none, some "B"],
        [some "X", some "Y", some "Z"]])[0]? = some [some "A", some "B", none] := by
  have h := (fix_hole_swap_spec.1 3 1 {0}
    [[some "A", none, some "B"], [some "X", some "Y", some "Z"]]
    (by decide) (by omega) (by decide) (by decide)).2 0
    [some "A", none, some "B"] rfl
  exact h.trans (by decide)

/-- C8 counterexample: a subtable whose first row is entirely empty makes
`find_holes` raise the `ValueError` of `min()` on an empty set — it is not
treated as "no hole". -/
theorem find_holes_empty_first_row_raises :
    find_holes [{0}] [[none, none]] =
      .error "ValueError: min() arg is an empty sequence" := rfl

/-- C8 (amended): hole detection raises exactly on an all-empty row —
`find_hole_in_row` returns the `min()` `ValueError` when the row has no
value and an `ok` result when it has at least one value. `clean_table`
itself never reaches the error from its own segmentation because
normalization removes empty rows first. -/
theorem find_hole_in_row_error_characterization :
    ∀ row : Row,
      (rowVals row = [] →
        find_hole_in_row row = .error "ValueError: min() arg is an empty sequence") ∧
      (rowVals row ≠ [] → ∃ res, find_hole_in_row row = .ok res) :=
  fun row => ⟨find_hole_in_row_error row, find_hole_in_row_ok row⟩

/-- C8 witness: both directions at concrete rows. -/
theorem find_hole_in_row_error_characterization_witness :
    find_hole_in_row [none] = .error "ValueError: min() arg is an empty sequence" ∧
      ∃ res, find_hole_in_row [some "A"] = .ok res :=
  ⟨(find_hole_in_row_error_characterization [none]).1 rfl,
    (find_hole_in_row_error_characterization [some "A"]).2 (by decide)⟩

/-- C10: a reported hole column is strictly interior — `1 ≤ c` and
`c + 2 ≤ rowLength`, the cell at `c` is empty, and non-empty cells exist
strictly left and strictly right of `c`; hence the accesses `fix_hole`
makes at columns `c-1`, `c` and `c+1` are within the grid's bounds. -/
theorem hole_interior_bounds : ∀ (row : Row) (c : Nat),
    find_hole_in_row row = .ok (some c) →
    1 ≤ c ∧ c + 2 ≤ row.length ∧ cellOf row c = none ∧
      (∃ i, i < c ∧ (cellOf row i).isSome) ∧
      (∃ j, c < j ∧ j < row.length ∧ (cellOf row j).isSome) :=
  fun row c h => find_hole_in_row_interior row c h

/-- C10 witness at the row `[A, NaN, B]`, whose hole is column 1. -/
theorem hole_interior_bounds_witness :
    1 ≤ 1 ∧ 1 + 2 ≤ ([some "A", none, some "B"] : Row).length ∧
      cellOf [some "A", none, some "B"] 1 = none ∧
      (∃ i, i < 1 ∧ (cellOf [some "A", none, some "B"] i).isSome) ∧
      (∃ j, 1 < j ∧ j < ([some "A", none, some "B"] : Row).length ∧
        (cellOf [some "A", none, some "B"] j).isSome) :=
  hole_interior_bounds [some "A", none, some "B"] 1 rfl

end Extractor
